import Mathlib

/-!
Verification of the steganography codec of the stegnoapp repository:
the variable-width bit-chunking primitive (ByteMask, src/utils.rs), the
embedder (Encoder, src/encoder.rs) and the extractor (Decoder,
src/decoder.rs).  Bytes (u8) are modelled as Nat; where the Rust code
truncates to 8 bits we take the value modulo 256 explicitly.  File I/O is
abstracted away: the secret file becomes a list of byte values, the pixel
buffer of the image becomes a flat list of byte values (exactly how the
codec treats it), and writing the output becomes returning the list of
produced bytes.
-/

/-- Error type, from src/errors.rs. -/
inductive Error where
  | SecretReadError
  | SecretTooLarge
  | InvalidNumberOfBits
  | ImageReadWriteError
deriving DecidableEq, Repr

/-- The ByteMask struct of src/utils.rs: configuration fields
(bits, mask, chunks, padded) plus the iteration cursor (byte, step). -/
structure ByteMask where
  bits : Nat
  mask : Nat
  chunks : Nat
  padded : Bool
  byte : Nat
  step : Nat
deriving DecidableEq, Repr

/-- The successful branch of ByteMask::new.  The source computes
chunks with f32::ceil(8f32 / bits as f32); for every accepted width
bits in 1..=8 that float computation is exact and equals the Nat
ceiling division (8 + bits - 1) / bits used here, and mask is computed
through u16 so 2 to the bits minus 1 never truncates. -/
def ByteMask.make (bits : Nat) : ByteMask :=
  let mask := 2 ^ bits - 1
  let chunks := (8 + bits - 1) / bits
  let padded := decide (8 < chunks * bits)
  { bits := bits, mask := mask, chunks := chunks, padded := padded,
    byte := 0, step := 0 }

/-- ByteMask::new from src/utils.rs: rejects bits == 0 and bits > 8. -/
def ByteMask.new (bits : Nat) : Except Error ByteMask :=
  if bits = 0 ∨ bits > 8 then Except.error Error.InvalidNumberOfBits
  else Except.ok (ByteMask.make bits)

/-- ByteMask::set_byte: re-arm the cursor on a fresh source byte. -/
def ByteMask.set_byte (m : ByteMask) (byte : Nat) : ByteMask :=
  { m with byte := byte, step := 0 }

/-- One call of the Iterator::next implementation for ByteMask
(src/utils.rs).  Returns the emitted chunk value and the advanced
cursor, or none when the iterator is exhausted. -/
def ByteMask.next (m : ByteMask) : Option (Nat × ByteMask) :=
  if m.step ≥ m.chunks then none
  else
    let m1 := { m with step := m.step + 1 }
    if m1.padded = true ∧ m1.step = m1.chunks then
      let shift := m1.bits * m1.step - 8
      some (m1.byte &&& (m1.mask >>> shift), m1)
    else
      let shift := 8 - m1.bits * m1.step
      some ((m1.byte >>> shift) &&& m1.mask, m1)

/-- Drain the iterator into a list, with explicit fuel (the Rust for
loop and flat_map drain it until next returns None; chunks fuel always
suffices because step grows by one per call). -/
def ByteMask.collect (m : ByteMask) : Nat → List Nat
  | 0 => []
  | fuel + 1 =>
    match m.next with
    | none => []
    | some (v, m1) => v :: m1.collect fuel

/-- The full chunk decomposition of one source byte: what
flat_map(|b| byte_iter.set_byte(b)) contributes for b. -/
def ByteMask.decompose (m : ByteMask) (b : Nat) : List Nat :=
  (m.set_byte b).collect m.chunks

/-- ByteMask::join_chunks from src/utils.rs: fold the chunk values
back into one byte.  shift.saturating_sub(bits) is Nat subtraction;
the u8 left shift keeps the low 8 bits, hence the modulo 256. -/
def ByteMask.join_chunks (m : ByteMask) (chunks : List Nat) : Nat :=
  (chunks.foldl
    (fun acc chunk =>
      let shift := acc.2 - m.bits
      (acc.1 ||| (chunk <<< shift) % 256, shift))
    ((0 : Nat), (8 : Nat))).1

/-- The Encoder struct of src/encoder.rs, with the image pixel buffer
and the secret file contents as byte lists. -/
structure Encoder where
  image : List Nat
  secret : List Nat
  mask : ByteMask
  zeroes : Nat
deriving DecidableEq, Repr

/-- Encoder::new from src/encoder.rs: capacity check and computation of
the zero-padding length. -/
def Encoder.new (image secret : List Nat) (mask : ByteMask) :
    Except Error Encoder :=
  let image_size := image.length
  let secret_size := secret.length * mask.chunks
  if image_size < secret_size then Except.error Error.SecretTooLarge
  else Except.ok { image := image, secret := secret, mask := mask,
                   zeroes := image_size - secret_size }

/-- Encoder::save from src/encoder.rs, as the pure image transform: zip
the image bytes against zeroes zero chunks followed by the flattened
decompositions of the secret bytes, and replace each image byte's low
bits (p & !mask) | b.  The u8 complement !mask is 255 xor mask. -/
def Encoder.save (e : Encoder) : List Nat :=
  let stream := List.replicate e.zeroes 0 ++
    e.secret.flatMap (fun b => e.mask.decompose b)
  (e.image.zip stream).map
    (fun pb => (pb.1 &&& (255 ^^^ e.mask.mask)) ||| pb.2)

/-- Loop state of Decoder::save (src/decoder.rs): the start flag, the
chunk buffer, and the bytes written to the output so far. -/
structure DecState where
  start : Bool
  buf : List Nat
  out : List Nat
deriving DecidableEq, Repr

/-- One iteration of the Decoder::save loop, on the already masked
value v at index i of an image of total length L.  Vec::with_capacity
gives the buffer capacity chunks, so the fill test compares against
chunks. -/
def Decoder.step (m : ByteMask) (L i : Nat) (s : DecState) (v : Nat) :
    DecState :=
  let n := m.chunks
  let s1 :=
    if s.start = false ∧ 0 < v then
      let offset := (L - i) % n
      let padded :=
        if offset ≠ 0 then s.buf ++ List.replicate (n - offset) 0 else s.buf
      { start := true, buf := padded, out := s.out }
    else s
  let s2 := if s1.start = true then { s1 with buf := s1.buf ++ [v] } else s1
  if s2.buf.length = n then
    { s2 with buf := [], out := s2.out ++ [m.join_chunks s2.buf] }
  else s2

/-- The Decoder::save loop over the remaining masked values, i being
the enumerate index. -/
def Decoder.go (m : ByteMask) (L : Nat) : Nat → List Nat → DecState →
    DecState
  | _, [], s => s
  | i, v :: vs, s => Decoder.go m L (i + 1) vs (Decoder.step m L i s v)

/-- Decoder::save as a pure function: the list of secret bytes written
to the output file when extracting from the given image bytes. -/
def Decoder.extract (m : ByteMask) (image : List Nat) : List Nat :=
  (Decoder.go m image.length 0 (image.map (fun b => b &&& m.mask))
    { start := false, buf := [], out := [] }).out

/-- Proof helper: the Decoder loop after the start flag is set — push
each value, emit a recomposed byte whenever the buffer fills. -/
def Decoder.grp (m : ByteMask) : List Nat → List Nat → List Nat →
    List Nat
  | [], _, out => out
  | v :: vs, buf, out =>
    let buf1 := buf ++ [v]
    if buf1.length = m.chunks then
      Decoder.grp m vs [] (out ++ [m.join_chunks buf1])
    else Decoder.grp m vs buf1 out

/-- The value emitted by next at (1-based) step s. -/
def ByteMask.emit (m : ByteMask) (s : Nat) : Nat :=
  if m.padded = true ∧ s = m.chunks then m.byte &&& (m.mask >>> (m.bits * s - 8))
  else (m.byte >>> (8 - m.bits * s)) &&& m.mask

theorem ByteMask.next_none {m : ByteMask} (h : m.chunks ≤ m.step) :
    m.next = none := by
  simp [ByteMask.next, h]

theorem ByteMask.next_some {m : ByteMask} (h : m.step < m.chunks) :
    m.next = some (({ m with step := m.step + 1 }).emit (m.step + 1),
      { m with step := m.step + 1 }) := by
  unfold ByteMask.next ByteMask.emit
  rw [if_neg (by omega)]
  split <;> simp_all

theorem ByteMask.collect_of_done {m : ByteMask} (h : m.chunks ≤ m.step) :
    ∀ fuel, m.collect fuel = [] := by
  intro fuel
  cases fuel with
  | zero => rfl
  | succ fuel => rw [ByteMask.collect, ByteMask.next_none h]

theorem ByteMask.collect_length (fuel : Nat) :
    ∀ m : ByteMask, (m.collect fuel).length = min fuel (m.chunks - m.step) := by
  induction fuel with
  | zero => intro m; simp [ByteMask.collect]
  | succ fuel ih =>
    intro m
    by_cases h : m.chunks ≤ m.step
    · rw [ByteMask.collect_of_done h]
      simp
      omega
    · rw [ByteMask.collect, ByteMask.next_some (by omega)]
      simp only [List.length_cons, ih]
      omega

theorem ByteMask.emit_le_mask (m : ByteMask) (s : Nat) : m.emit s ≤ m.mask := by
  unfold ByteMask.emit
  split
  · calc m.byte &&& (m.mask >>> (m.bits * s - 8)) ≤ m.mask >>> (m.bits * s - 8) :=
        Nat.and_le_right
      _ ≤ m.mask := by rw [Nat.shiftRight_eq_div_pow]; exact Nat.div_le_self _ _
  · exact Nat.and_le_right

theorem ByteMask.collect_le_mask (fuel : Nat) :
    ∀ (m : ByteMask) (v : Nat), v ∈ m.collect fuel → v ≤ m.mask := by
  induction fuel with
  | zero => intro m v h; simp [ByteMask.collect] at h
  | succ fuel ih =>
    intro m v h
    by_cases hs : m.chunks ≤ m.step
    · rw [ByteMask.collect_of_done hs] at h; simp at h
    · rw [ByteMask.collect, ByteMask.next_some (by omega)] at h
      rcases List.mem_cons.mp h with h | h
      · subst h; exact ByteMask.emit_le_mask _ _
      · exact ih { m with step := m.step + 1 } v h

theorem ByteMask.decompose_length (m : ByteMask) (b : Nat) :
    (m.decompose b).length = m.chunks := by
  simp [ByteMask.decompose, ByteMask.set_byte, ByteMask.collect_length]

theorem ByteMask.decompose_le_mask (m : ByteMask) (b : Nat) :
    ∀ v ∈ m.decompose b, v ≤ m.mask := by
  intro v h
  simp only [ByteMask.decompose] at h
  exact ByteMask.collect_le_mask m.chunks (m.set_byte b) v h

theorem ByteMask.new_ok_iff {bits : Nat} {m : ByteMask} :
    ByteMask.new bits = Except.ok m ↔
      bits ≠ 0 ∧ bits ≤ 8 ∧ m = ByteMask.make bits := by
  unfold ByteMask.new
  by_cases h : bits = 0 ∨ bits > 8
  · rw [if_pos h]
    constructor
    · intro hc; simp at hc
    · rintro ⟨h1, h2, _⟩
      rcases h with h | h <;> omega
  · rw [if_neg h]
    push_neg at h
    simp only [Except.ok.injEq]
    constructor
    · intro he
      exact ⟨h.1, h.2, he.symm⟩
    · rintro ⟨_, _, rfl⟩
      rfl

set_option maxRecDepth 4000 in
theorem ByteMask.make_facts : ∀ bits, bits < 9 → bits ≠ 0 →
    (ByteMask.make bits).mask = 2 ^ (ByteMask.make bits).bits - 1 ∧
    (ByteMask.make bits).bits ≤ 8 ∧ 1 ≤ (ByteMask.make bits).bits ∧
    0 < (ByteMask.make bits).chunks := by decide

set_option maxRecDepth 8000 in
theorem ByteMask.join_decompose : ∀ bits, bits < 9 → bits ≠ 0 → ∀ b, b < 256 →
    (ByteMask.make bits).join_chunks ((ByteMask.make bits).decompose b) = b := by
  decide

theorem complement_and_self {k : Nat} (hk : k ≤ 8) :
    (255 ^^^ (2 ^ k - 1)) &&& (2 ^ k - 1) = 0 := by
  interval_cases k <;> decide

theorem masked_embed_byte {k : Nat} (hk : k ≤ 8) (p v : Nat)
    (hv : v ≤ 2 ^ k - 1) :
    ((p &&& (255 ^^^ (2 ^ k - 1))) ||| v) &&& (2 ^ k - 1) = v := by
  have hv2 : v < 2 ^ k := by
    have : 0 < 2 ^ k := Nat.pos_pow_of_pos k (by omega)
    omega
  rw [Nat.and_distrib_right, Nat.and_assoc, complement_and_self hk,
    Nat.and_zero, Nat.zero_or, Nat.and_pow_two_sub_one_of_lt_two_pow hv2]

theorem map_mask_zip (m : ByteMask) (hmask : m.mask = 2 ^ m.bits - 1)
    (hb : m.bits ≤ 8) :
    ∀ (img str : List Nat), (∀ v ∈ str, v ≤ m.mask) →
      ((img.zip str).map
          (fun pb => (pb.1 &&& (255 ^^^ m.mask)) ||| pb.2)).map
        (fun b => b &&& m.mask) = str.take img.length := by
  intro img
  induction img with
  | nil => intro str hstr; simp
  | cons p img ih =>
    intro str hstr
    cases str with
    | nil => simp
    | cons v str =>
      simp only [List.zip_cons_cons, List.map_cons, List.length_cons,
        List.take_succ_cons]
      rw [List.cons.injEq]
      constructor
      · rw [hmask]
        exact masked_embed_byte hb p v (hmask ▸ hstr v (by simp))
      · exact ih str (fun w hw => hstr w (by simp [hw]))

theorem Encoder.construct_ok_iff {image secret : List Nat} {m : ByteMask}
    {e : Encoder} :
    Encoder.new image secret m = Except.ok e ↔
      secret.length * m.chunks ≤ image.length ∧
      e = { image := image, secret := secret, mask := m,
            zeroes := image.length - secret.length * m.chunks } := by
  unfold Encoder.new
  by_cases h : image.length < secret.length * m.chunks
  · rw [if_pos h]
    constructor
    · intro hc; simp at hc
    · rintro ⟨h1, _⟩; omega
  · rw [if_neg h]
    simp only [Except.ok.injEq]
    constructor
    · intro he; exact ⟨by omega, he.symm⟩
    · rintro ⟨_, rfl⟩; rfl

theorem flatMap_decompose_length (m : ByteMask) (S : List Nat) :
    (S.flatMap m.decompose).length = S.length * m.chunks := by
  induction S with
  | nil => simp
  | cons b S ih =>
    simp only [List.flatMap_cons, List.length_append, ih,
      ByteMask.decompose_length, List.length_cons]
    ring

theorem Decoder.step_zero (m : ByteMask) (L i : Nat) (out : List Nat)
    (hn : 0 < m.chunks) :
    Decoder.step m L i { start := false, buf := [], out := out } 0 =
      { start := false, buf := [], out := out } := by
  simp [Decoder.step, hn.ne]

theorem Decoder.go_zeros (m : ByteMask) (L : Nat) (hn : 0 < m.chunks) :
    ∀ (k i : Nat) (vs out : List Nat),
      Decoder.go m L i (List.replicate k 0 ++ vs)
        { start := false, buf := [], out := out } =
      Decoder.go m L (i + k) vs { start := false, buf := [], out := out } := by
  intro k
  induction k with
  | zero => intro i vs out; simp
  | succ k ih =>
    intro i vs out
    rw [List.replicate_succ, List.cons_append]
    simp only [Decoder.go]
    rw [Decoder.step_zero m L i out hn, ih (i + 1) vs out]
    congr 1
    omega

theorem Decoder.step_started (m : ByteMask) (L i : Nat)
    (buf out : List Nat) (v : Nat) :
    Decoder.step m L i { start := true, buf := buf, out := out } v =
      if (buf ++ [v]).length = m.chunks then
        { start := true, buf := [],
          out := out ++ [m.join_chunks (buf ++ [v])] }
      else { start := true, buf := buf ++ [v], out := out } := by
  by_cases hfull : (buf ++ [v]).length = m.chunks <;>
    simp_all [Decoder.step]

theorem Decoder.go_start (m : ByteMask) (L : Nat) :
    ∀ (vs : List Nat) (i : Nat) (buf out : List Nat),
      (Decoder.go m L i vs { start := true, buf := buf, out := out }).out =
        Decoder.grp m vs buf out := by
  intro vs
  induction vs with
  | nil => intro i buf out; simp [Decoder.go, Decoder.grp]
  | cons v vs ih =>
    intro i buf out
    simp only [Decoder.go, Decoder.grp, Decoder.step_started]
    by_cases hfull : (buf ++ [v]).length = m.chunks
    · rw [if_pos hfull, if_pos hfull, ih]
    · rw [if_neg hfull, if_neg hfull, ih]

theorem Decoder.step_first (m : ByteMask) (L i v : Nat) (hv : 0 < v)
    (out : List Nat) :
    Decoder.step m L i { start := false, buf := [], out := out } v =
      (let pad : List Nat :=
        List.replicate
          (if (L - i) % m.chunks = 0 then 0
           else m.chunks - (L - i) % m.chunks) 0
       if (pad ++ [v]).length = m.chunks then
         { start := true, buf := [],
           out := out ++ [m.join_chunks (pad ++ [v])] }
       else { start := true, buf := pad ++ [v], out := out }) := by
  by_cases hoff : (L - i) % m.chunks = 0 <;>
    by_cases hfull : (List.replicate
        (if (L - i) % m.chunks = 0 then 0
         else m.chunks - (L - i) % m.chunks) 0 ++ [v]).length = m.chunks <;>
    simp_all [Decoder.step, hv]

theorem Decoder.go_first (m : ByteMask) (L i v : Nat) (hv : 0 < v)
    (vs : List Nat) :
    (Decoder.go m L i (v :: vs)
        { start := false, buf := [], out := [] }).out =
      Decoder.grp m (v :: vs)
        (List.replicate
          (if (L - i) % m.chunks = 0 then 0
           else m.chunks - (L - i) % m.chunks) 0) [] := by
  simp only [Decoder.go]
  rw [Decoder.step_first m L i v hv]
  simp only [Decoder.grp, List.nil_append]
  by_cases hfull : (List.replicate
      (if (L - i) % m.chunks = 0 then 0
       else m.chunks - (L - i) % m.chunks) 0 ++ [v]).length = m.chunks
  · rw [if_pos hfull, if_pos hfull, Decoder.go_start]
  · rw [if_neg hfull, if_neg hfull, Decoder.go_start]

theorem Decoder.grp_absorb (m : ByteMask) :
    ∀ (k : Nat) (vs buf out : List Nat), buf.length + k < m.chunks →
      Decoder.grp m (List.replicate k 0 ++ vs) buf out =
        Decoder.grp m vs (buf ++ List.replicate k 0) out := by
  intro k
  induction k with
  | zero => intro vs buf out _; simp
  | succ k ih =>
    intro vs buf out hlt
    rw [List.replicate_succ, List.cons_append]
    simp only [Decoder.grp]
    rw [if_neg (by simp; omega)]
    rw [ih vs (buf ++ [0]) out (by simp; omega)]
    rw [List.append_assoc, List.singleton_append]

theorem Decoder.grp_full (m : ByteMask) :
    ∀ (cs vs buf out : List Nat), buf.length < m.chunks →
      buf.length + cs.length = m.chunks →
      Decoder.grp m (cs ++ vs) buf out =
        Decoder.grp m vs [] (out ++ [m.join_chunks (buf ++ cs)]) := by
  intro cs
  induction cs with
  | nil => intro vs buf out hlt hlen; simp at hlen; omega
  | cons c cs ih =>
    intro vs buf out hlt hlen
    simp only [List.cons_append, Decoder.grp, List.append_eq]
    by_cases hfull : (buf ++ [c]).length = m.chunks
    · have hcs : cs = [] := by
        simp at hfull hlen
        exact List.eq_nil_of_length_eq_zero (by omega)
      subst hcs
      rw [if_pos hfull]
      simp
    · rw [if_neg hfull]
      rw [ih vs (buf ++ [c]) out (by simp at hfull hlen ⊢; omega)
        (by simp at hlen ⊢; omega)]
      rw [List.append_assoc, List.singleton_append]

theorem Decoder.grp_flat (m : ByteMask) (hn : 0 < m.chunks)
    (S : List Nat) (hS : ∀ b ∈ S, m.join_chunks (m.decompose b) = b) :
    ∀ out, Decoder.grp m (S.flatMap m.decompose) [] out = out ++ S := by
  induction S with
  | nil => intro out; simp [Decoder.grp]
  | cons b S ih =>
    intro out
    rw [List.flatMap_cons]
    rw [Decoder.grp_full m (m.decompose b) (S.flatMap m.decompose) [] out
      (by simpa using hn) (by simp [ByteMask.decompose_length])]
    simp only [List.nil_append]
    rw [ih (fun w hw => hS w (by simp [hw])) (out ++ [m.join_chunks (m.decompose b)])]
    simp [hS b (by simp)]

theorem Decoder.grp_len (m : ByteMask) (hn : 0 < m.chunks) :
    ∀ (vs buf out : List Nat), buf.length < m.chunks →
      (Decoder.grp m vs buf out).length =
        out.length + (buf.length + vs.length) / m.chunks := by
  intro vs
  induction vs with
  | nil =>
    intro buf out hlt
    simp [Decoder.grp, Nat.div_eq_of_lt hlt]
  | cons v vs ih =>
    intro buf out hlt
    simp only [Decoder.grp, List.length_cons]
    by_cases hfull : (buf ++ [v]).length = m.chunks
    · rw [if_pos hfull, ih [] (out ++ [m.join_chunks (buf ++ [v])]) hn]
      simp at hfull ⊢
      rw [show buf.length + (vs.length + 1) = vs.length + m.chunks by omega]
      rw [Nat.add_div_right _ hn]
      omega
    · rw [if_neg hfull, ih (buf ++ [v]) out (by simp at hfull ⊢; omega)]
      simp
      rw [show buf.length + 1 + vs.length = buf.length + (vs.length + 1) by omega]

theorem pad_count_eq (n d k : Nat) (hn : 0 < n) (hd : d < n) (hk : 1 ≤ k) :
    (if (k * n - d) % n = 0 then 0 else n - (k * n - d) % n) = d := by
  rcases Nat.eq_zero_or_pos d with hd0 | hd0
  · subst hd0
    simp [Nat.mul_mod_left]
  · have hkn : k * n = n * (k - 1) + n := by
      cases k with
      | zero => omega
      | succ j => simp [Nat.succ_sub_one]; ring
    have h1 : k * n - d = (n - d) + n * (k - 1) := by omega
    rw [h1, Nat.add_mul_mod_self_left, Nat.mod_eq_of_lt (by omega)]
    rw [if_neg (by omega)]
    omega

theorem pad_div_eq_ceil (n r : Nat) (hn : 0 < n) :
    ((if r % n = 0 then 0 else n - r % n) + r) / n = (r + n - 1) / n := by
  by_cases h : r % n = 0
  · rw [if_pos h]
    obtain ⟨q, rfl⟩ := Nat.dvd_of_mod_eq_zero h
    rw [Nat.zero_add]
    rw [show n * q + n - 1 = n * q + (n - 1) by omega]
    rw [Nat.mul_add_div hn, Nat.mul_div_cancel_left q hn,
      Nat.div_eq_of_lt (by omega)]
    omega
  · rw [if_neg h]
    have hmod : r % n < n := Nat.mod_lt r hn
    have hdm : n * (r / n) + r % n = r := Nat.div_add_mod r n
    have hpos : 0 < r % n := Nat.pos_of_ne_zero h
    rw [show n - r % n + r = n * (r / n) + n by omega, Nat.mul_add_div hn,
      Nat.div_self hn]
    rw [show r + n - 1 = n * (r / n) + (r % n + n - 1) by omega,
      Nat.mul_add_div hn]
    have : (r % n + n - 1) / n = 1 :=
      Nat.div_eq_of_lt_le (by omega) (by omega)
    omega

theorem exists_split_first_nonzero :
    ∀ cs : List Nat, (∃ c ∈ cs, c ≠ 0) →
      ∃ d v rest, cs = List.replicate d 0 ++ v :: rest ∧ 0 < v ∧
        d < cs.length := by
  intro cs
  induction cs with
  | nil => intro h; simp at h
  | cons c cs ih =>
    intro h
    by_cases hc : c = 0
    · subst hc
      have h2 : ∃ w ∈ cs, w ≠ 0 := by
        rcases h with ⟨w, hw, hw0⟩
        rcases List.mem_cons.mp hw with rfl | hw'
        · omega
        · exact ⟨w, hw', hw0⟩
      obtain ⟨d, v, rest, hcs, hv, hd⟩ := ih h2
      refine ⟨d + 1, v, rest, ?_, hv, ?_⟩
      · rw [List.replicate_succ, List.cons_append, hcs]
      · simp
        omega
    · exact ⟨0, c, cs, by simp, Nat.pos_of_ne_zero hc, by simp⟩

theorem Encoder.save_length {image secret : List Nat} {m : ByteMask}
    {e : Encoder} (he : Encoder.new image secret m = Except.ok e) :
    e.save.length = image.length := by
  obtain ⟨hcap, rfl⟩ := Encoder.construct_ok_iff.mp he
  simp only [Encoder.save, List.length_map, List.length_zip,
    List.length_append, List.length_replicate, flatMap_decompose_length]
  omega

theorem Encoder.save_masked {image secret : List Nat} {m : ByteMask}
    {e : Encoder} (he : Encoder.new image secret m = Except.ok e)
    (hmask : m.mask = 2 ^ m.bits - 1) (hb : m.bits ≤ 8) :
    e.save.map (fun b => b &&& m.mask) =
      List.replicate (image.length - secret.length * m.chunks) 0 ++
        secret.flatMap m.decompose := by
  obtain ⟨hcap, rfl⟩ := Encoder.construct_ok_iff.mp he
  simp only [Encoder.save]
  rw [map_mask_zip m hmask hb _ _ ?_]
  · refine List.take_of_length_le ?_
    rw [List.length_append, List.length_replicate, flatMap_decompose_length]
    omega
  · intro v hv
    rcases List.mem_append.mp hv with hv | hv
    · rw [List.eq_of_mem_replicate hv]
      exact Nat.zero_le _
    · obtain ⟨b, _, hvb⟩ := List.mem_flatMap.mp hv
      exact ByteMask.decompose_le_mask m b v hvb

/-- C1: Round trip: for every accepted bit-width, every cover image, and
every secret that fits the capacity check and whose first byte decomposes
to at least one nonzero chunk, extracting from the embedded image returns
exactly the secret. -/
theorem claim_C1 (bits : Nat) (m : ByteMask)
    (hm : ByteMask.new bits = Except.ok m)
    (image secret : List Nat) (e : Encoder)
    (he : Encoder.new image secret m = Except.ok e)
    (hbytes : ∀ b ∈ secret, b < 256)
    (hne : secret ≠ [])
    (hnz : ∃ c ∈ m.decompose (secret.headD 0), c ≠ 0) :
    Decoder.extract m e.save = secret := by
  obtain ⟨hb0, hb8, hmk⟩ := ByteMask.new_ok_iff.mp hm
  have hfacts := ByteMask.make_facts bits (by omega) hb0
  rw [← hmk] at hfacts
  obtain ⟨hmask, hb8', hb1', hn⟩ := hfacts
  have hjoin : ∀ b ∈ secret, m.join_chunks (m.decompose b) = b := by
    intro b hb
    rw [hmk]
    exact ByteMask.join_decompose bits (by omega) hb0 b (hbytes b hb)
  obtain ⟨b0, S', rfl⟩ : ∃ b0 S', secret = b0 :: S' := by
    cases secret with
    | nil => exact absurd rfl hne
    | cons b0 S' => exact ⟨b0, S', rfl⟩
  obtain ⟨d, v, rest0, hsplit, hv, hd⟩ :=
    exists_split_first_nonzero (m.decompose b0) (by simpa using hnz)
  rw [ByteMask.decompose_length] at hd
  have hcap := (Encoder.construct_ok_iff.mp he).1
  unfold Decoder.extract
  rw [Encoder.save_length he, Encoder.save_masked he hmask hb8']
  have hstream :
      List.replicate (image.length - (b0 :: S').length * m.chunks) 0 ++
        (b0 :: S').flatMap m.decompose =
      List.replicate ((image.length - (b0 :: S').length * m.chunks) + d) 0 ++
        (v :: (rest0 ++ S'.flatMap m.decompose)) := by
    rw [List.flatMap_cons, hsplit, ← List.append_replicate_replicate,
      List.append_assoc, List.append_assoc]
    simp
  rw [hstream]
  rw [Decoder.go_zeros m image.length hn
    ((image.length - (b0 :: S').length * m.chunks) + d) 0 _ []]
  rw [Nat.zero_add]
  rw [Decoder.go_first m image.length
    ((image.length - (b0 :: S').length * m.chunks) + d) v hv]
  have hLzd : image.length -
      ((image.length - (b0 :: S').length * m.chunks) + d) =
      (b0 :: S').length * m.chunks - d := by omega
  rw [hLzd]
  rw [pad_count_eq m.chunks d (b0 :: S').length hn hd (by simp)]
  rw [show Decoder.grp m (v :: (rest0 ++ S'.flatMap m.decompose))
        (List.replicate d 0) [] =
      Decoder.grp m (List.replicate d 0 ++
        (v :: (rest0 ++ S'.flatMap m.decompose))) [] [] by
    rw [Decoder.grp_absorb m d _ [] [] (by simpa using hd)]
    simp]
  rw [show List.replicate d 0 ++ (v :: (rest0 ++ S'.flatMap m.decompose)) =
      (b0 :: S').flatMap m.decompose by
    rw [List.flatMap_cons, hsplit]
    simp [List.append_assoc]]
  rw [Decoder.grp_flat m hn (b0 :: S') hjoin []]
  simp

set_option maxRecDepth 4000 in
theorem make_chunks_le8 : ∀ bits, bits < 9 → bits ≠ 0 →
    (ByteMask.make bits).chunks ≤ 8 := by decide

set_option maxRecDepth 4000 in
theorem make_spec_aux : ∀ bits, bits < 9 → bits ≠ 0 →
    (ByteMask.make bits).mask = 2 ^ bits - 1 ∧
    (ByteMask.make bits).chunks = (8 + bits - 1) / bits ∧
    ((ByteMask.make bits).padded = true ↔
      8 < (ByteMask.make bits).chunks * (ByteMask.make bits).bits) ∧
    8 ≤ (ByteMask.make bits).bits * (ByteMask.make bits).chunks ∧
    ((ByteMask.make bits).padded = false ↔
      bits = 1 ∨ bits = 2 ∨ bits = 4 ∨ bits = 8) := by decide

set_option maxRecDepth 8000 in
theorem decompose_steps_aux : ∀ a, a < 8 → ∀ b, b < 256 →
    ∀ s, s < 9 → 1 ≤ s → s ≤ (ByteMask.make (a + 1)).chunks →
      ((ByteMask.make (a + 1)).decompose b).getD (s - 1) 0 =
        if (ByteMask.make (a + 1)).padded = true ∧
            s = (ByteMask.make (a + 1)).chunks
        then b &&&
          ((ByteMask.make (a + 1)).mask >>>
            ((ByteMask.make (a + 1)).bits * s - 8))
        else (b >>> (8 - (ByteMask.make (a + 1)).bits * s)) &&&
          (ByteMask.make (a + 1)).mask := by
  decide

/-- C2: Decompose/Recompose inverse law: for every accepted bit-width and
every byte, recomposing the decomposition gives the byte back; in
particular at bits = 2 the byte 0x41 decomposes to 1,0,0,1 and
recomposing 1,0,0,1 yields 0x41. -/
theorem claim_C2 :
    (∀ bits b m, ByteMask.new bits = Except.ok m → b < 256 →
      m.join_chunks (m.decompose b) = b) ∧
    (∀ m, ByteMask.new 2 = Except.ok m →
      m.decompose 65 = [1, 0, 0, 1] ∧ m.join_chunks [1, 0, 0, 1] = 65) := by
  constructor
  · intro bits b m hm hb
    obtain ⟨hb0, hb8, rfl⟩ := ByteMask.new_ok_iff.mp hm
    exact ByteMask.join_decompose bits (by omega) hb0 b hb
  · intro m hm
    obtain ⟨_, _, rfl⟩ := ByteMask.new_ok_iff.mp hm
    exact ⟨by decide, by decide⟩

/-- Witness for C2 at bits = 3 and byte 0xFF. -/
theorem claim_C2_witness :
    (ByteMask.make 3).join_chunks ((ByteMask.make 3).decompose 255) = 255 :=
  claim_C2.1 3 255 (ByteMask.make 3) rfl (by decide)

/-- C4: Decomposition steps: the decomposition has exactly chunks
entries, and the (1-based) step s entry is byte and (mask shifted right
by bits times s minus 8) on the padded final step, and (byte shifted
right by 8 minus bits times s) and mask otherwise; in particular at
bits = 3 the byte 0xFF decomposes to 7, 7, 3. -/
theorem claim_C4 :
    (∀ bits b m, ByteMask.new bits = Except.ok m → b < 256 →
      (m.decompose b).length = m.chunks ∧
      ∀ s, 1 ≤ s → s ≤ m.chunks →
        (m.decompose b).getD (s - 1) 0 =
          if m.padded = true ∧ s = m.chunks then
            b &&& (m.mask >>> (m.bits * s - 8))
          else (b >>> (8 - m.bits * s)) &&& m.mask) ∧
    (∀ m, ByteMask.new 3 = Except.ok m → m.decompose 255 = [7, 7, 3]) := by
  constructor
  · intro bits b m hm hb
    obtain ⟨hb0, hb8, rfl⟩ := ByteMask.new_ok_iff.mp hm
    refine ⟨ByteMask.decompose_length _ b, ?_⟩
    intro s hs1 hs2
    have hs9 : s < 9 := by
      have := make_chunks_le8 bits (by omega) hb0
      omega
    obtain ⟨t, rfl⟩ : ∃ t, bits = t + 1 := ⟨bits - 1, by omega⟩
    exact decompose_steps_aux t (by omega) b hb s hs9 hs1 hs2
  · intro m hm
    obtain ⟨_, _, rfl⟩ := ByteMask.new_ok_iff.mp hm
    decide

/-- Witness for C4 at bits = 5, byte 0xAB, final (padded) step. -/
theorem claim_C4_witness :
    ((ByteMask.make 5).decompose 171).getD 1 0 =
      171 &&& ((ByteMask.make 5).mask >>> ((ByteMask.make 5).bits * 2 - 8)) := by
  have h := (claim_C4.1 5 171 (ByteMask.make 5) rfl (by decide)).2
    2 (by decide) (by decide)
  rw [h]
  decide

/-- C5: Capacity boundary: Encoder construction fails with
SecretTooLarge exactly when the secret needs more chunks than the image
has bytes, succeeds at equality, and on success stores the zero-padding
count. -/
theorem claim_C5 (image secret : List Nat) (m : ByteMask) :
    (Encoder.new image secret m = Except.error Error.SecretTooLarge ↔
      image.length < secret.length * m.chunks) ∧
    (secret.length * m.chunks = image.length →
      ∃ e, Encoder.new image secret m = Except.ok e) ∧
    (∀ e, Encoder.new image secret m = Except.ok e →
      e.zeroes = image.length - secret.length * m.chunks) := by
  refine ⟨?_, ?_, ?_⟩
  · unfold Encoder.new
    by_cases h : image.length < secret.length * m.chunks
    · rw [if_pos h]
      simp [h]
    · rw [if_neg h]
      simp [h]
  · intro heq
    exact ⟨_, Encoder.construct_ok_iff.mpr ⟨by omega, rfl⟩⟩
  · intro e he
    obtain ⟨_, rfl⟩ := Encoder.construct_ok_iff.mp he
    rfl

/-- Witness for C5: a 1-byte image cannot hold a 2-byte secret at
bits = 8, and a 2-byte image holds it exactly. -/
theorem claim_C5_witness :
    Encoder.new [9] [1, 2] (ByteMask.make 8) =
      Except.error Error.SecretTooLarge :=
  (claim_C5 [9] [1, 2] (ByteMask.make 8)).1.mpr (by decide)

/-- C7: Spec construction: ByteMask construction fails exactly for
bits = 0 or bits > 8 (hence fails at 0 and 9, succeeds on 1..8) and on
success sets mask to 2 to the bits minus 1, chunks to the ceiling of
8 over bits, and padded exactly when chunks times bits exceeds 8;
moreover bits times chunks is at least 8 and padded is false exactly
for bits 1, 2, 4, 8. -/
theorem claim_C7 :
    (∀ bits, ByteMask.new bits = Except.error Error.InvalidNumberOfBits ↔
      (bits = 0 ∨ 8 < bits)) ∧
    (∀ bits, bits ≠ 0 → bits ≤ 8 → ∃ m, ByteMask.new bits = Except.ok m) ∧
    (∀ bits m, ByteMask.new bits = Except.ok m →
      m.mask = 2 ^ bits - 1 ∧ m.chunks = (8 + bits - 1) / bits ∧
      (m.padded = true ↔ 8 < m.chunks * m.bits) ∧
      8 ≤ m.bits * m.chunks ∧
      (m.padded = false ↔ bits = 1 ∨ bits = 2 ∨ bits = 4 ∨ bits = 8)) := by
  refine ⟨?_, ?_, ?_⟩
  · intro bits
    unfold ByteMask.new
    by_cases h : bits = 0 ∨ bits > 8
    · rw [if_pos h]
      simp [h]
    · rw [if_neg h]
      simp
      omega
  · intro bits h0 h8
    exact ⟨_, ByteMask.new_ok_iff.mpr ⟨h0, h8, rfl⟩⟩
  · intro bits m hm
    obtain ⟨hb0, hb8, rfl⟩ := ByteMask.new_ok_iff.mp hm
    exact make_spec_aux bits (by omega) hb0

/-- Witness for C7: construction fails at bits = 9. -/
theorem claim_C7_witness :
    ByteMask.new 9 = Except.error Error.InvalidNumberOfBits :=
  (claim_C7.1 9).mpr (by decide)

/-- Witness for C1: bits = 2, an 8-byte all-255 image and the one-byte
secret 0x41 round-trips. -/
theorem claim_C1_witness :
    Decoder.extract (ByteMask.make 2)
      (Encoder.save (Encoder.mk [255, 255, 255, 255, 255, 255, 255, 255]
        [65] (ByteMask.make 2) 4)) = [65] :=
  claim_C1 2 (ByteMask.make 2) rfl
    [255, 255, 255, 255, 255, 255, 255, 255] [65]
    (Encoder.mk [255, 255, 255, 255, 255, 255, 255, 255] [65]
      (ByteMask.make 2) 4)
    rfl (by decide) (by decide) (by decide)

/-- C3: Extraction alignment and output length: from the first index i
whose masked value is nonzero, the extractor runs the grouping loop
seeded with chunks minus offset zero chunks (offset being image length
minus i, mod chunks, when nonzero), and the number of output bytes is
the ceiling of (image length minus i) over chunks. -/
theorem claim_C3 (bits : Nat) (m : ByteMask)
    (hm : ByteMask.new bits = Except.ok m)
    (image : List Nat) (i v : Nat) (rest : List Nat)
    (hscan : image.map (fun b => b &&& m.mask) =
      List.replicate i 0 ++ v :: rest)
    (hv : 0 < v) :
    Decoder.extract m image =
      Decoder.grp m (v :: rest)
        (List.replicate
          (if (image.length - i) % m.chunks = 0 then 0
           else m.chunks - (image.length - i) % m.chunks) 0) [] ∧
    (Decoder.extract m image).length =
      (image.length - i + m.chunks - 1) / m.chunks := by
  obtain ⟨hb0, hb8, hmk⟩ := ByteMask.new_ok_iff.mp hm
  have hfacts := ByteMask.make_facts bits (by omega) hb0
  rw [← hmk] at hfacts
  obtain ⟨_, _, _, hn⟩ := hfacts
  have hext : Decoder.extract m image =
      Decoder.grp m (v :: rest)
        (List.replicate
          (if (image.length - i) % m.chunks = 0 then 0
           else m.chunks - (image.length - i) % m.chunks) 0) [] := by
    unfold Decoder.extract
    rw [hscan, Decoder.go_zeros m image.length hn i 0 _ [], Nat.zero_add,
      Decoder.go_first m image.length i v hv]
  refine ⟨hext, ?_⟩
  have hlen : image.length = i + (rest.length + 1) := by
    have h2 := congrArg List.length hscan
    simpa using h2
  have hplt : (List.replicate
      (if (image.length - i) % m.chunks = 0 then 0
       else m.chunks - (image.length - i) % m.chunks) 0).length <
      m.chunks := by
    simp only [List.length_replicate]
    split
    · omega
    · have := Nat.mod_lt (image.length - i) hn
      omega
  rw [hext, Decoder.grp_len m hn _ _ _ hplt]
  simp only [List.length_replicate, List.length_cons, List.length_nil]
  rw [show rest.length + 1 = image.length - i by omega]
  rw [pad_div_eq_ceil m.chunks (image.length - i) hn]
  omega

/-- Witness for C3: bits = 3, a 4-byte image whose first nonzero masked
value sits at index 1; one output byte is recovered. -/
theorem claim_C3_witness :
    (Decoder.extract (ByteMask.make 3) [8, 7, 7, 7]).length = 1 :=
  (claim_C3 3 (ByteMask.make 3) rfl [8, 7, 7, 7] 1 7 [7, 7]
    (by decide) (by decide)).2

/-- Bit-level frame lemma for the embedding write
p1 = (p and not mask) or v: bits at positions k at or above the chunk
width are unchanged. -/
theorem frame_bit {k bitsN : Nat} (p v : Nat)
    (hp : p < 256) (hv : v ≤ 2 ^ bitsN - 1) (hk : bitsN ≤ k) :
    ((p &&& (255 ^^^ (2 ^ bitsN - 1))) ||| v).testBit k = p.testBit k := by
  have hv2 : v < 2 ^ bitsN := by
    have : 0 < 2 ^ bitsN := Nat.pos_pow_of_pos _ (by omega)
    omega
  have hvk : v.testBit k = false :=
    Nat.testBit_lt_two_pow
      (lt_of_lt_of_le hv2 (Nat.pow_le_pow_right (by omega) hk))
  have hmk : (2 ^ bitsN - 1).testBit k = false := by
    rw [Nat.testBit_two_pow_sub_one]
    simp
    omega
  rw [Nat.testBit_or, Nat.testBit_and, Nat.testBit_xor, hvk, hmk]
  by_cases hk8 : k < 8
  · have h255 : (255 : Nat).testBit k = true := by
      rw [show (255 : Nat) = 2 ^ 8 - 1 by norm_num,
        Nat.testBit_two_pow_sub_one]
      simp [hk8]
    rw [h255]
    simp
  · have hpk : p.testBit k = false := by
      refine Nat.testBit_lt_two_pow (lt_of_lt_of_le hp ?_)
      rw [show (256 : Nat) = 2 ^ 8 by norm_num]
      exact Nat.pow_le_pow_right (by omega) (by omega)
    have h255 : (255 : Nat).testBit k = false := by
      rw [show (255 : Nat) = 2 ^ 8 - 1 by norm_num,
        Nat.testBit_two_pow_sub_one]
      simp
      omega
    rw [h255, hpk]
    simp

theorem zip_embed_testBit (m : ByteMask) (hmask : m.mask = 2 ^ m.bits - 1)
    (hb : m.bits ≤ 8) :
    ∀ (img str : List Nat), (∀ v ∈ str, v ≤ m.mask) →
      (∀ p ∈ img, p < 256) →
      ∀ j k, m.bits ≤ k →
        (((img.zip str).map
            (fun pb => (pb.1 &&& (255 ^^^ m.mask)) ||| pb.2)).getD j 0 |>.testBit k)
          = ((img.take str.length).getD j 0).testBit k := by
  intro img
  induction img with
  | nil => intro str hstr himg j k hk; simp
  | cons p img ih =>
    intro str hstr himg j k hk
    cases str with
    | nil => simp
    | cons v str =>
      cases j with
      | zero =>
        simp only [List.zip_cons_cons, List.map_cons, List.getD_cons_zero,
          List.length_cons, List.take_succ_cons]
        rw [hmask]
        exact frame_bit p v (himg p (by simp))
          (hmask ▸ hstr v (by simp)) hk
      | succ j =>
        simp only [List.zip_cons_cons, List.map_cons, List.getD_cons_succ,
          List.length_cons, List.take_succ_cons]
        exact ih str (fun w hw => hstr w (by simp [hw]))
          (fun q hq => himg q (by simp [hq])) j k hk

/-- C6: Non-destructive high bits: after a successful embed, every bit
of every stego byte at position at or above the chunk width equals the
corresponding bit of the cover image byte. -/
theorem claim_C6 (bits : Nat) (m : ByteMask)
    (hm : ByteMask.new bits = Except.ok m)
    (image secret : List Nat) (e : Encoder)
    (he : Encoder.new image secret m = Except.ok e)
    (himg : ∀ p ∈ image, p < 256) :
    ∀ j k, m.bits ≤ k →
      (e.save.getD j 0).testBit k = (image.getD j 0).testBit k := by
  obtain ⟨hb0, hb8, hmk⟩ := ByteMask.new_ok_iff.mp hm
  have hfacts := ByteMask.make_facts bits (by omega) hb0
  rw [← hmk] at hfacts
  obtain ⟨hmask, hb8', _, _⟩ := hfacts
  have hcap := (Encoder.construct_ok_iff.mp he).1
  have hfl : (secret.flatMap fun b => m.decompose b).length =
      secret.length * m.chunks := flatMap_decompose_length m secret
  obtain ⟨_, rfl⟩ := Encoder.construct_ok_iff.mp he
  intro j k hk
  simp only [Encoder.save]
  rw [zip_embed_testBit m hmask hb8' image _ ?_ himg j k hk]
  · rw [List.take_of_length_le (by
      rw [List.length_append, List.length_replicate, hfl]
      omega)]
  · intro v hv
    rcases List.mem_append.mp hv with hv | hv
    · rw [List.eq_of_mem_replicate hv]
      exact Nat.zero_le _
    · obtain ⟨b, _, hvb⟩ := List.mem_flatMap.mp hv
      exact ByteMask.decompose_le_mask m b v hvb

/-- Witness for C6: bits = 1, an 8-byte image of 255s and secret 0x41;
bit 5 of the first stego byte equals bit 5 of the cover byte. -/
theorem claim_C6_witness :
    ((Encoder.save (Encoder.mk [255, 255, 255, 255, 255, 255, 255, 255]
        [65] (ByteMask.make 1) 0)).getD 0 0).testBit 5 =
      (([255, 255, 255, 255, 255, 255, 255, 255] : List Nat).getD 0
        0).testBit 5 :=
  claim_C6 1 (ByteMask.make 1) rfl
    [255, 255, 255, 255, 255, 255, 255, 255] [65]
    (Encoder.mk [255, 255, 255, 255, 255, 255, 255, 255] [65]
      (ByteMask.make 1) 0)
    rfl (by decide) 0 5 (by decide)

/-- C8: Zero-padding prefix: the first zeroes stego bytes carry zero in
their masked low bits and the rest carry the flattened decompositions
of the secret; concretely, a 100-byte image with a 10-byte secret at
bits = 8 yields 90 zero bytes followed by the secret verbatim. -/
theorem claim_C8 :
    (∀ bits m, ByteMask.new bits = Except.ok m →
      ∀ image secret e, Encoder.new image secret m = Except.ok e →
        (e.save.take e.zeroes).map (fun b => b &&& m.mask) =
          List.replicate e.zeroes 0 ∧
        (e.save.drop e.zeroes).map (fun b => b &&& m.mask) =
          secret.flatMap m.decompose) ∧
    (∀ e, Encoder.new (List.replicate 100 255)
        [10, 20, 30, 40, 50, 60, 70, 80, 90, 100] (ByteMask.make 8) =
        Except.ok e →
      e.zeroes = 90 ∧
      e.save = List.replicate 90 0 ++
        [10, 20, 30, 40, 50, 60, 70, 80, 90, 100]) := by
  constructor
  · intro bits m hm image secret e he
    obtain ⟨hb0, hb8, hmk⟩ := ByteMask.new_ok_iff.mp hm
    have hfacts := ByteMask.make_facts bits (by omega) hb0
    rw [← hmk] at hfacts
    obtain ⟨hmask, hb8', _, _⟩ := hfacts
    have hsm := Encoder.save_masked he hmask hb8'
    have hz : e.zeroes = image.length - secret.length * m.chunks := by
      obtain ⟨_, rfl⟩ := Encoder.construct_ok_iff.mp he
      rfl
    rw [hz]
    constructor
    · rw [List.map_take, hsm]
      exact List.take_left' (by simp)
    · rw [List.map_drop, hsm]
      exact List.drop_left' (by simp)
  · intro e he
    obtain ⟨hcap, rfl⟩ := Encoder.construct_ok_iff.mp he
    exact ⟨by decide, by decide⟩

/-- Witness for C8 at bits = 2 on a 5-byte image with a 1-byte secret. -/
theorem claim_C8_witness :
    ((Encoder.save (Encoder.mk [9, 9, 9, 9, 9] [65] (ByteMask.make 2)
        1)).take 1).map
      (fun b => b &&& (ByteMask.make 2).mask) = List.replicate 1 0 :=
  (claim_C8.1 2 (ByteMask.make 2) rfl [9, 9, 9, 9, 9] [65]
    (Encoder.mk [9, 9, 9, 9, 9] [65] (ByteMask.make 2) 1) rfl).1

/-- C9: Silent no-data mode: when every image byte masks to zero the
extractor succeeds with an empty output instead of reporting an
error. -/
theorem claim_C9 (bits : Nat) (m : ByteMask)
    (hm : ByteMask.new bits = Except.ok m)
    (image : List Nat) (hall : ∀ b ∈ image, b &&& m.mask = 0) :
    Decoder.extract m image = [] := by
  obtain ⟨hb0, hb8, hmk⟩ := ByteMask.new_ok_iff.mp hm
  have hfacts := ByteMask.make_facts bits (by omega) hb0
  rw [← hmk] at hfacts
  obtain ⟨_, _, _, hn⟩ := hfacts
  unfold Decoder.extract
  have hmap : image.map (fun b => b &&& m.mask) =
      List.replicate image.length 0 := by
    rw [List.eq_replicate_iff]
    constructor
    · simp
    · intro c hc
      obtain ⟨b, hb, rfl⟩ := List.mem_map.mp hc
      exact hall b hb
  rw [hmap]
  rw [show List.replicate image.length 0 =
      List.replicate image.length 0 ++ [] by simp]
  rw [Decoder.go_zeros m image.length hn image.length 0 [] []]
  rfl

/-- Witness for C9: all-zero masked bytes at bits = 2 extract to the
empty output. -/
theorem claim_C9_witness :
    Decoder.extract (ByteMask.make 2) [4, 8, 252] = [] :=
  claim_C9 2 (ByteMask.make 2) rfl [4, 8, 252] (by decide)

/-- C10: Arithmetic totality of the chunk codec: for every accepted
bit-width, the shifts computed by the decomposition iterator never
underflow (the non-final or non-padded step has bits times s at most 8,
the padded final step has bits times s at least 8) and stay below 8,
every emitted chunk is at most mask, and the saturating shifts of
recomposition stay below 8 as well — no panic branch is reachable. -/
theorem claim_C10 (bits : Nat) (m : ByteMask)
    (hm : ByteMask.new bits = Except.ok m) :
    (∀ s, 1 ≤ s → s ≤ m.chunks →
      (¬(m.padded = true ∧ s = m.chunks) → m.bits * s ≤ 8) ∧
      (m.padded = true ∧ s = m.chunks → 8 ≤ m.bits * s) ∧
      8 - m.bits * s < 8 ∧ m.bits * s - 8 < 8) ∧
    (∀ b, ∀ c ∈ m.decompose b, c ≤ m.mask) ∧
    (∀ k, 1 ≤ k → 8 - m.bits * k < 8) := by
  obtain ⟨hb0, hb8, hmk⟩ := ByteMask.new_ok_iff.mp hm
  have hfacts := ByteMask.make_facts bits (by omega) hb0
  have hch8 := make_chunks_le8 bits (by omega) hb0
  rw [← hmk] at hfacts hch8
  obtain ⟨hmask, hb8', hb1', hn⟩ := hfacts
  refine ⟨?_, ?_, ?_⟩
  · intro s hs1 hs2
    rw [hmk]
    rw [hmk] at hs2
    clear hm hmask hb8' hb1' hn hch8
    interval_cases bits <;>
      have hs8 : s ≤ 8 := le_trans hs2 (by decide) <;>
      interval_cases s <;> revert hs2 <;> decide
  · intro b c hc
    exact ByteMask.decompose_le_mask m b c hc
  · intro k hk
    have h1 : 1 * k ≤ m.bits * k := Nat.mul_le_mul_right k hb1'
    omega

/-- Witness for C10 at bits = 5 (a padded width) and its final step. -/
theorem claim_C10_witness :
    8 ≤ (ByteMask.make 5).bits * 2 :=
  ((claim_C10 5 (ByteMask.make 5) rfl).1 2 (by decide)
    (by decide)).2.1 (by decide)

example : (ByteMask.make 2).decompose 65 = [1, 0, 0, 1] := by decide

example : (ByteMask.make 3).decompose 255 = [7, 7, 3] := by decide

example : (ByteMask.make 3).join_chunks [7, 7, 3] = 255 := by decide

example : (ByteMask.make 2).chunks = 4 := by decide

example :
    Decoder.extract (ByteMask.make 2)
      (Encoder.save { image := [255, 255, 255, 255, 255, 255, 255, 255],
                      secret := [65], mask := ByteMask.make 2,
                      zeroes := 4 }) = [65] := by decide
